import Mathlib

/-!
Verification of the pairs-trading backtester of `src/v2/backtest_v2.py`
(class `Backtester`) against its natural-language specification.

The Python code is shallowly embedded: prices and signal values are
modelled as rationals, `NaN` propagation as `Option`, and the bar loop of
`Backtester.run` as an explicit fold over a state record.  `np.log` is an
abstract parameter `lg : ℚ → ℚ` (the pipeline never inspects its values,
only moves them around, so every structural claim is proved for an
arbitrary such map).  Only the default `use_log_price_spread = True`
branch of `prepare_data` is embedded, which is the mode whose formulas
(`alpha` in the spread) the specification describes.
-/

namespace HFT

/-- A column slice `series.iloc[a:b]`. -/
def ilocSlice (l : List ℚ) (a b : Nat) : List ℚ :=
  (l.drop a).take (b - a)

/-- Mean of a list (`Series.mean`); `0` on the empty list, where pandas
would give NaN — callers guard definedness separately. -/
def meanQ (l : List ℚ) : ℚ := l.sum / (l.length : ℚ)

/-- Population variance, the square of `Series.std(ddof=0)`.  The code
works with the standard deviation `√ popVarQ`; the square root of a
rational is irrational in general, so the embedding carries the variance,
which is defined exactly when the standard deviation is and zero exactly
when the standard deviation is zero. -/
def popVarQ (l : List ℚ) : ℚ :=
  (l.map (fun v => (v - meanQ l) * (v - meanQ l))).sum / (l.length : ℚ)

/-- `np.polyfit(x, y, 1)` in exact arithmetic: the ordinary least squares
solution `(beta, alpha)` of `y = alpha + beta * x` via the normal
equations.  A degenerate window (constant `x`, or fewer than two points)
has no unique fit; the specification treats a singular regression input
as an undefined result, hence `none` there. -/
def olsFit (xs ys : List ℚ) : Option (ℚ × ℚ) :=
  let n : ℚ := (xs.length : ℚ)
  let sx := xs.sum
  let sy := ys.sum
  let sxx := (xs.map (fun v => v * v)).sum
  let sxy := (List.zipWith (· * ·) xs ys).sum
  let d := n * sxx - sx * sx
  if d = 0 then none
  else
    let beta := (n * sxy - sx * sy) / d
    some (beta, (sy - beta * sx) / n)

/-- Rolling hedge fit of `prepare_data` (lines 64–77), log-price mode:
row `i` fits over `y.iloc[i - hedge_window : i]` and
`x.iloc[i - hedge_window : i]` where `x = lg price_b`, `y = lg price_a`;
rows with `i < hedge_window` get NaN (`none`).  `pa`, `pb` are the two
close-price columns already aligned on the common (inner-joined)
timestamp index. -/
def hedgeAt (lg : ℚ → ℚ) (hw : Nat) (pa pb : List ℚ) (i : Nat) : Option (ℚ × ℚ) :=
  if i < hw then none
  else olsFit (ilocSlice (pb.map lg) (i - hw) i) (ilocSlice (pa.map lg) (i - hw) i)

/-- The `spread` column at row `i` (line 84, log-price mode):
`spread = y - (alpha + beta * x)`; NaN (`none`) while the hedge fit is
undefined or `i` is out of range. -/
def spreadAt (lg : ℚ → ℚ) (hw : Nat) (pa pb : List ℚ) (i : Nat) : Option ℚ :=
  match hedgeAt lg hw pa pb i, (pa.map lg).get? i, (pb.map lg).get? i with
  | some ba, some y, some x => some (y - (ba.2 + ba.1 * x))
  | _, _, _ => none

/-- Sequence a list of optional values: `some` of the contents when every
entry is defined, `none` otherwise — how a pandas rolling aggregate over
a window containing NaN yields NaN (default `min_periods = window`). -/
def seqOption : List (Option ℚ) → Option (List ℚ)
  | [] => some []
  | o :: t => o.bind (fun v => (seqOption t).map (fun l => v :: l))

/-- A `Series.rolling(sw)` window ending at row `i`: the `sw` values at
rows `i + 1 - sw, …, i`; `none` when the window is not yet full or any
value in it is NaN. -/
def rollWindow (f : Nat → Option ℚ) (sw i : Nat) : Option (List ℚ) :=
  if i + 1 < sw then none
  else seqOption ((List.range sw).map (fun k => f (i + 1 - sw + k)))

/-- The `spread_mean` column (line 88). -/
def spreadMeanAt (lg : ℚ → ℚ) (hw sw : Nat) (pa pb : List ℚ) (i : Nat) : Option ℚ :=
  (rollWindow (spreadAt lg hw pa pb) sw i).map meanQ

/-- Rolling population variance of the spread.  The `spread_std` column
(line 89) is its square root: `spread_std` is defined iff this is
defined, and zero iff this is zero. -/
def spreadVarAt (lg : ℚ → ℚ) (hw sw : Nat) (pa pb : List ℚ) (i : Nat) : Option ℚ :=
  (rollWindow (spreadAt lg hw pa pb) sw i).map popVarQ

/-- Whether `z = (spread - spread_mean) / spread_std` (line 90) is a
number at row `i`: the rolling window must be full of defined spreads and
have nonzero variance.  `spread_std = 0` forces `spread = spread_mean`
(a zero-variance window is constant and ends at the current spread), so
`z` is then `0 / 0 = NaN`. -/
def zDefinedAt (lg : ℚ → ℚ) (hw sw : Nat) (pa pb : List ℚ) (i : Nat) : Bool :=
  match spreadVarAt lg hw sw pa pb i with
  | some v => decide (v ≠ 0)
  | none => false

/-- Row `i` survives the final `df.dropna()` of `prepare_data`
(line 92): every derived column is a number there.  (`price_a`,
`price_b`, `x`, `y` are always numbers for in-range rows in log-price
mode, and `alpha` is defined together with `beta`.) -/
def rowSurvives (lg : ℚ → ℚ) (hw sw : Nat) (pa pb : List ℚ) (i : Nat) : Bool :=
  (hedgeAt lg hw pa pb i).isSome && (spreadAt lg hw pa pb i).isSome &&
    (spreadMeanAt lg hw sw pa pb i).isSome && (spreadVarAt lg hw sw pa pb i).isSome &&
    zDefinedAt lg hw sw pa pb i

/-- Index of the frame returned by `prepare_data`: the positions, in the
aligned (inner-joined) input, of the rows surviving the final `dropna`.
The timestamp intersection is modelled by presenting the two close
columns already aligned, with `min` guarding unequal tails. -/
def prepareDataIndex (lg : ℚ → ℚ) (hw sw : Nat) (pa pb : List ℚ) : List Nat :=
  (List.range (min pa.length pb.length)).filter (fun i => rowSurvives lg hw sw pa pb i)

/-- One row of the frame `Backtester.run` iterates over: a surviving bar
with its position `idx` in the aligned input (the timestamp label) and
the four fields the loop body reads (lines 117–120).  `z` is a number on
every row the loop sees, because `prepare_data` dropped the others. -/
structure RunRow where
  idx : Nat
  z : ℚ
  beta : ℚ
  priceA : ℚ
  priceB : ℚ
deriving DecidableEq

/-- The constructor parameters of `Backtester` that `run` reads (the
window sizes only feed `prepare_data`). -/
structure RunParams where
  zEntry : ℚ
  zExit : ℚ
  initialCapital : ℚ
  notionalPerLeg : ℚ
  betaNeutral : Bool
  costBps : ℚ
  maxHoldBars : Option Int
  stopZ : Option ℚ
deriving DecidableEq

/-- The mutable loop state of `Backtester.run` (lines 103–114), plus the
accumulated equity series as `(timestamp, equity)` pairs.  `entryPos` is
`entry_idx` stored as the loop position of the entry bar, which is what
`df.index.get_loc` recovers from the timestamp. -/
structure RState where
  capital : ℚ
  position : Int
  sh_a : ℚ
  sh_b : ℚ
  entryPos : Option Nat
  trades : Nat
  equity : List (Nat × ℚ)
deriving DecidableEq

/-- `Backtester._trade_cost` (lines 94–98). -/
def tradeCost (P : RunParams) : ℚ :=
  if P.costBps ≤ 0 then 0 else 2 * P.notionalPerLeg * (P.costBps / 10000)

/-- Direction chosen by the entry check (lines 134–137): `-1` (short
spread) when `z > z_entry`, else `1` (long spread) when `z < -z_entry`,
else `0`. -/
def entryDir (P : RunParams) (z : ℚ) : Int :=
  if P.zEntry < z then -1 else if z < -P.zEntry then 1 else 0

/-- Whether the entry signal fires at all on a bar with signal `z`. -/
def entryCond (P : RunParams) (r : RunRow) : Bool :=
  decide (P.zEntry < r.z) || decide (r.z < -P.zEntry)

/-- The ENTRY block (lines 132–151): from FLAT, on a triggered signal,
set the direction, size both legs, deduct the entry cost, bump the trade
count and remember the entry bar. -/
def entryStep (P : RunParams) (s : RState) (j : Nat) (r : RunRow) : RState :=
  if s.position = 0 then
    let pos := entryDir P r.z
    if pos = 0 then s
    else
      { s with
        position := pos
        sh_a := (P.notionalPerLeg / r.priceA) * (pos : ℚ)
        sh_b := -(P.notionalPerLeg * (if P.betaNeutral then |r.beta| else 1) / r.priceB) * (pos : ℚ)
        capital := s.capital - tradeCost P
        trades := s.trades + 1
        entryPos := some j }
  else s

/-- The optional stop (line 123): `stop_z` is configured and `|z| >= stop_z`. -/
def stopOutB (P : RunParams) (z : ℚ) : Bool :=
  match P.stopZ with
  | some sz => decide (sz ≤ |z|)
  | none => false

/-- The max-hold check (lines 126–130), evaluated on the pre-bar state
`s` at loop position `j`: in a position, with `max_hold_bars` configured
and an entry bar recorded, the bars held so far reach the limit. -/
def heldTooLongB (P : RunParams) (s : RState) (j : Nat) : Bool :=
  if s.position ≠ 0 then
    match P.maxHoldBars, s.entryPos with
    | some m, some e => decide (m ≤ (j : Int) - (e : Int))
    | _, _ => false
  else false

/-- The exit condition of lines 155 and 172:
`abs(z) < z_exit or stop_out or held_too_long`, with `stop_out` and
`held_too_long` the values computed at the top of the bar from the
pre-bar state. -/
def exitCondB (P : RunParams) (s : RState) (j : Nat) (z : ℚ) : Bool :=
  decide (|z| < P.zExit) || stopOutB P z || heldTooLongB P s j

/-- Mark-to-market of the held legs at the bar's prices (line 163). -/
def mtmOf (s : RState) (r : RunRow) : ℚ :=
  s.sh_a * r.priceA + s.sh_b * r.priceB

/-- One iteration of the bar loop of `Backtester.run` (lines 116–180):
run the ENTRY block, record `equity = capital + mtm` for this bar, then
— re-testing `position != 0` on the state the ENTRY block just produced,
exactly as line 172 does — realize a flagged exit: cash out the recorded
equity, deduct the exit cost and flatten. -/
def step (P : RunParams) (s : RState) (j : Nat) (r : RunRow) : RState :=
  let s1 := entryStep P s j r
  let eqv := s1.capital + mtmOf s1 r
  let s2 := { s1 with equity := s1.equity ++ [(r.idx, eqv)] }
  if s2.position ≠ 0 ∧ exitCondB P s j r.z = true then
    { s2 with
      capital := eqv - tradeCost P
      position := 0
      sh_a := 0
      sh_b := 0
      entryPos := none }
  else s2

/-- The state `run` starts from (lines 103–114). -/
def initState (P : RunParams) : RState :=
  { capital := P.initialCapital
    position := 0
    sh_a := 0
    sh_b := 0
    entryPos := none
    trades := 0
    equity := [] }

/-- The bar loop from state `s` at loop position `j`. -/
def runFrom (P : RunParams) : RState → Nat → List RunRow → RState
  | s, _, [] => s
  | s, j, r :: rest => runFrom P (step P s j r) (j + 1) rest

/-- `Backtester.run` on the prepared rows: the final state carries the
equity series (`results["equity"]`) and the returned trade count. -/
def run (P : RunParams) (rows : List RunRow) : RState :=
  runFrom P (initState P) 0 rows

/-- The pre-bar states seen by the loop, bar by bar. -/
def trajFrom (P : RunParams) : RState → Nat → List RunRow → List RState
  | _, _, [] => []
  | s, j, r :: rest => s :: trajFrom P (step P s j r) (j + 1) rest

/-- `results["returns"]` after the `dropna` in `performance_metrics`:
percentage change between consecutive equity values, the first point
contributing none (line 183 and line 191). -/
def returnsOf (equityVals : List ℚ) : List ℚ :=
  List.zipWith (fun p c => (c - p) / p) equityVals equityVals.tail

/-- The Sharpe-like component of `Backtester.performance_metrics`
(lines 193–196).  The guard is the code's
`rets.std(ddof=0) == 0 or len(rets) < 2` — the standard deviation
`√ popVarQ` is zero iff the variance is.  In the defined case the code
returns `sqrt(252 * 78) * mean / std`, an irrational real; the embedding
returns the pair `(mean, variance)` that determines it, the value being
`√(252·78) · mean / √ variance`. -/
def sharpeMetric (equityVals : List ℚ) : Option (ℚ × ℚ) :=
  let rets := returnsOf equityVals
  if popVarQ rets = 0 ∨ rets.length < 2 then none
  else some (meanQ rets, popVarQ rets)

/-- The constructor defaults of `Backtester` (lines 15–29), used as a
base configuration by concrete instantiations. -/
def defaultParams : RunParams :=
  { zEntry := 6 / 5
    zExit := 1 / 5
    initialCapital := 1000000
    notionalPerLeg := 100000
    betaNeutral := true
    costBps := 0
    maxHoldBars := none
    stopZ := none }

/-- A configuration with `z_exit > z_entry` (both legal constructor
arguments), transaction costs on, and small round numbers. -/
def cexParams : RunParams :=
  { defaultParams with
    zEntry := 1
    zExit := 2
    initialCapital := 100
    notionalPerLeg := 1000
    betaNeutral := false
    costBps := 100 }

/-- A single bar whose signal `z = 3/2` lies between `z_entry = 1` and
`z_exit = 2` of `cexParams`. -/
def cexRow : RunRow :=
  { idx := 0
    z := 3 / 2
    beta := 1
    priceA := 10
    priceB := 5 }

/-! Helper lemmas about list indexing, used for the no-lookahead claim. -/

theorem get?_drop_add (l : List ℚ) : ∀ a m : Nat, (l.drop a).get? m = l.get? (a + m) := by
  induction l with
  | nil => intro a m; simp
  | cons x t ih =>
    intro a m
    cases a with
    | zero => simp
    | succ a =>
      have h1 : (a + 1 + m) = (a + m) + 1 := by omega
      simp [h1, ih a m]

theorem get?_take_lt (l : List ℚ) (n m : Nat) (h : m < n) : (l.take n).get? m = l.get? m := by
  simp only [List.get?_eq_getElem?]
  exact List.getElem?_take_of_lt h

theorem get?_take_ge (l : List ℚ) (n m : Nat) (h : n ≤ m) : (l.take n).get? m = none := by
  simp only [List.get?_eq_getElem?]
  refine List.getElem?_eq_none ?_
  calc (l.take n).length ≤ n := by simp
    _ ≤ m := h

/-- Two columns agreeing on every row strictly before `b` have equal
`iloc[a:b]` slices. -/
theorem ilocSlice_eq_of_agree {l l2 : List ℚ} {a b : Nat}
    (h : ∀ j, j < b → l.get? j = l2.get? j) : ilocSlice l a b = ilocSlice l2 a b := by
  apply List.ext_get?
  intro n
  unfold ilocSlice
  by_cases hn : n < b - a
  · rw [get?_take_lt _ _ _ hn, get?_take_lt _ _ _ hn, get?_drop_add, get?_drop_add]
    exact h (a + n) (by omega)
  · rw [get?_take_ge _ _ _ (le_of_not_lt hn), get?_take_ge _ _ _ (le_of_not_lt hn)]

/-- C1: no lookahead in hedge estimation.  The hedge fit at bar `i` is
computed by ordinary least squares over exactly the strictly preceding
`hedge_window` rows `[i - hedge_window, i)` (see `hedgeAt`), so two input
price-series pairs that agree on every bar strictly before `i` get the
same `beta` and `alpha` at `i` — the fit is invariant under changes to
any bar at or after `i`. -/
theorem hedge_no_lookahead (lg : ℚ → ℚ) (hw : Nat) (pa pb pa2 pb2 : List ℚ) (i : Nat)
    (h : ∀ j, j < i → pa.get? j = pa2.get? j ∧ pb.get? j = pb2.get? j) :
    hedgeAt lg hw pa pb i = hedgeAt lg hw pa2 pb2 i := by
  unfold hedgeAt
  by_cases hi : i < hw
  · rw [if_pos hi, if_pos hi]
  · rw [if_neg hi, if_neg hi]
    have hx : ilocSlice (pb.map lg) (i - hw) i = ilocSlice (pb2.map lg) (i - hw) i := by
      refine ilocSlice_eq_of_agree (fun j hj => ?_)
      simp only [List.get?_eq_getElem?, List.getElem?_map]
      rw [← List.get?_eq_getElem?, ← List.get?_eq_getElem?, (h j hj).2]
    have hy : ilocSlice (pa.map lg) (i - hw) i = ilocSlice (pa2.map lg) (i - hw) i := by
      refine ilocSlice_eq_of_agree (fun j hj => ?_)
      simp only [List.get?_eq_getElem?, List.getElem?_map]
      rw [← List.get?_eq_getElem?, ← List.get?_eq_getElem?, (h j hj).1]
    rw [hx, hy]

/-- C1 witness: two concrete series pairs differing only at bar 2 get
the same hedge fit at bar 2. -/
theorem hedge_no_lookahead_witness :
    hedgeAt (fun q => q) 2 [1, 2, 5] [1, 3, 6] 2 = hedgeAt (fun q => q) 2 [1, 2, 7] [1, 3, 9] 2 :=
  hedge_no_lookahead (fun q => q) 2 [1, 2, 5] [1, 3, 6] [1, 2, 7] [1, 3, 9] 2 (by
    intro j hj
    interval_cases j <;> exact ⟨rfl, rfl⟩)

/-! Helper lemmas about single steps of the bar loop. -/

theorem entryStep_equity (P : RunParams) (s : RState) (j : Nat) (r : RunRow) :
    (entryStep P s j r).equity = s.equity := by
  simp only [entryStep]
  by_cases h0 : s.position = 0
  · by_cases hd : entryDir P r.z = 0
    · simp [h0, hd]
    · simp [h0, hd]
  · simp [h0]

/-- The entry check fires exactly when a nonzero direction is chosen. -/
theorem entryCond_iff (P : RunParams) (r : RunRow) :
    entryCond P r = true ↔ entryDir P r.z ≠ 0 := by
  unfold entryCond entryDir
  by_cases h1 : P.zEntry < r.z
  · simp [h1]
  · by_cases h2 : r.z < -P.zEntry
    · simp [h1, h2]
    · simp [h1, h2]

/-- A fired entry signal means the bar's signal magnitude exceeds `z_entry`. -/
theorem abs_gt_of_entryDir (P : RunParams) (z : ℚ) (h : entryDir P z ≠ 0) :
    P.zEntry < |z| := by
  unfold entryDir at h
  by_cases h1 : P.zEntry < z
  · exact lt_of_lt_of_le h1 (le_abs_self z)
  · by_cases h2 : z < -P.zEntry
    · have hz : -z ≤ |z| := neg_le_abs z
      linarith
    · simp [h1, h2] at h

/-- The ENTRY block on a FLAT state with a fired signal, unfolded. -/
theorem entryStep_fire (P : RunParams) (s : RState) (j : Nat) (r : RunRow)
    (h0 : s.position = 0) (hd : entryDir P r.z ≠ 0) :
    entryStep P s j r =
      { s with
        position := entryDir P r.z
        sh_a := (P.notionalPerLeg / r.priceA) * ((entryDir P r.z : Int) : ℚ)
        sh_b := -(P.notionalPerLeg * (if P.betaNeutral then |r.beta| else 1) / r.priceB) *
          ((entryDir P r.z : Int) : ℚ)
        capital := s.capital - tradeCost P
        trades := s.trades + 1
        entryPos := some j } := by
  unfold entryStep
  rw [if_pos h0, if_neg hd]

theorem entryStep_skip (P : RunParams) (s : RState) (j : Nat) (r : RunRow)
    (h : s.position ≠ 0 ∨ entryDir P r.z = 0) : entryStep P s j r = s := by
  unfold entryStep
  by_cases h0 : s.position = 0
  · rw [if_pos h0]
    rcases h with h | h
    · exact absurd h0 h
    · rw [if_pos h]
  · rw [if_neg h0]

theorem step_of_exit (P : RunParams) (s : RState) (j : Nat) (r : RunRow)
    (hpos : (entryStep P s j r).position ≠ 0) (hexit : exitCondB P s j r.z = true) :
    step P s j r =
      { capital := ((entryStep P s j r).capital + mtmOf (entryStep P s j r) r) - tradeCost P
        position := 0
        sh_a := 0
        sh_b := 0
        entryPos := none
        trades := (entryStep P s j r).trades
        equity := (entryStep P s j r).equity ++
          [(r.idx, (entryStep P s j r).capital + mtmOf (entryStep P s j r) r)] } := by
  unfold step
  rw [if_pos]
  exact ⟨hpos, hexit⟩

theorem step_of_no_exit (P : RunParams) (s : RState) (j : Nat) (r : RunRow)
    (h : (entryStep P s j r).position = 0 ∨ exitCondB P s j r.z = false) :
    step P s j r =
      { entryStep P s j r with
        equity := (entryStep P s j r).equity ++
          [(r.idx, (entryStep P s j r).capital + mtmOf (entryStep P s j r) r)] } := by
  unfold step
  rw [if_neg]
  rintro ⟨hpos, hexit⟩
  rcases h with h | h
  · exact hpos h
  · rw [h] at hexit
    exact Bool.false_ne_true hexit

/-- C2 (corrected), counterexample: with `z_exit > z_entry` the claim
fails.  Here `z_entry = 1`, `z_exit = 2`, `cost_bps = 100`
(`tradeCost = 20`), one bar with `z = 3/2`: the bar enters from FLAT
(`trades = 1`) and the exit re-check of line 172, which reads the
position the ENTRY block just set, flattens it on the same bar
(`position = 0`), charging both the entry and the exit cost
(`capital = 100 - 20 + 0 - 20 = 60`). -/
theorem same_bar_entry_exit_cex :
    (run cexParams [cexRow]).trades = 1 ∧ (run cexParams [cexRow]).position = 0 ∧
      (run cexParams [cexRow]).capital = 60 ∧ (run cexParams [cexRow]).equity = [(0, 80)] := by
  norm_num [run, runFrom, step, entryStep, entryDir, entryCond, exitCondB, stopOutB,
    heldTooLongB, mtmOf, tradeCost, initState, cexParams, cexRow, defaultParams, abs_lt, le_abs]

/-- C2 (corrected), amended: a bar either enters (from FLAT) or is
evaluated for exit (from non-FLAT), never both, provided
`z_exit <= z_entry` and no stop is configured: then a position opened on
a bar is still open at the end of that bar, and a bar starting non-FLAT
never increments the trade count.  (Without the proviso the exit
re-check of line 172 can flatten a same-bar entry, as the counterexample
shows; `max_hold_bars` alone can never do so, since `held_too_long` is
computed from the pre-bar state, which is FLAT on an entry bar.) -/
theorem same_bar_entry_exit_amended (P : RunParams) (s : RState) (j : Nat) (r : RunRow)
    (hze : P.zExit ≤ P.zEntry) (hstop : P.stopZ = none) :
    (s.position = 0 → entryCond P r = true →
      (step P s j r).position = entryDir P r.z ∧ (step P s j r).position ≠ 0 ∧
        (step P s j r).entryPos = some j) ∧
    (s.position ≠ 0 → (step P s j r).trades = s.trades) := by
  constructor
  · intro h0 hc
    have hd : entryDir P r.z ≠ 0 := (entryCond_iff P r).mp hc
    have habs : ¬ (|r.z| < P.zExit) := by
      have h1 : P.zEntry < |r.z| := abs_gt_of_entryDir P r.z hd
      linarith
    have hheld : heldTooLongB P s j = false := by
      unfold heldTooLongB
      rw [if_neg]
      intro hpos
      exact hpos h0
    have hexit : exitCondB P s j r.z = false := by
      unfold exitCondB stopOutB
      rw [hstop, hheld]
      simp [habs]
    rw [step_of_no_exit P s j r (Or.inr hexit), entryStep_fire P s j r h0 hd]
    exact ⟨rfl, hd, rfl⟩
  · intro hpos
    have hskip : entryStep P s j r = s := entryStep_skip P s j r (Or.inl hpos)
    by_cases hexit : exitCondB P s j r.z = true
    · by_cases hp2 : (entryStep P s j r).position = 0
      · rw [step_of_no_exit P s j r (Or.inl hp2), hskip]
      · rw [step_of_exit P s j r hp2 hexit, hskip]
    · rw [step_of_no_exit P s j r (Or.inr (by simpa using hexit)), hskip]

/-- C2 witness for the amended statement: a concrete FLAT bar with a
fired signal under `z_exit <= z_entry` and no stop stays open through
the bar. -/
theorem same_bar_entry_exit_amended_witness :
    (step defaultParams (initState defaultParams) 0 cexRow).position = -1 ∧
      (step defaultParams (initState defaultParams) 0 cexRow).entryPos = some 0 := by
  have h := (same_bar_entry_exit_amended defaultParams (initState defaultParams) 0 cexRow
    (by norm_num [defaultParams]) rfl).1 rfl
    (by norm_num [entryCond, defaultParams, cexRow])
  refine ⟨?_, h.2.2⟩
  rw [h.1]
  norm_num [entryDir, defaultParams, cexRow]

/-- C4: exit realization ordering.  On every bar where an exit is
triggered (the pre-recording state is in a position and the exit
condition holds), the recorded EquityPoint is `capital + mark-to-market`
at this bar's prices, computed before the exit transaction cost; only
after recording is `capital` set to that recorded equity minus the exit
cost, and the state reset to FLAT with shares and entry metadata
cleared.  The recorded equity value carries no `tradeCost` term, so the
exit bar's EquityPoint never reflects the exit cost. -/
theorem exit_realization_order (P : RunParams) (s : RState) (j : Nat) (r : RunRow)
    (hpos : (entryStep P s j r).position ≠ 0) (hexit : exitCondB P s j r.z = true) :
    step P s j r =
      { capital := ((entryStep P s j r).capital + mtmOf (entryStep P s j r) r) - tradeCost P
        position := 0
        sh_a := 0
        sh_b := 0
        entryPos := none
        trades := (entryStep P s j r).trades
        equity := s.equity ++
          [(r.idx, (entryStep P s j r).capital + mtmOf (entryStep P s j r) r)] } := by
  rw [step_of_exit P s j r hpos hexit, entryStep_equity]

/-- A non-FLAT state about to take an exit bar. -/
def exitWitnessState : RState :=
  { capital := 1000
    position := 1
    sh_a := 10
    sh_b := -5
    entryPos := some 0
    trades := 1
    equity := [(0, 1000)] }

/-- A bar whose signal `z = 0` is inside the exit band. -/
def exitWitnessRow : RunRow :=
  { idx := 1
    z := 0
    beta := 1
    priceA := 20
    priceB := 30 }

/-- A configuration with a nonzero exit cost (`tradeCost = 1`). -/
def exitWitnessParams : RunParams :=
  { defaultParams with
    zEntry := 2
    zExit := 1 / 2
    notionalPerLeg := 100
    costBps := 50 }

/-- C4 witness: on a concrete exit bar the recorded equity is the
pre-cost mark `1000 + 50 = 1050` and the post-bar capital is
`1050 - 1 = 1049`. -/
theorem exit_realization_order_witness :
    step exitWitnessParams exitWitnessState 5 exitWitnessRow =
      { capital := 1049
        position := 0
        sh_a := 0
        sh_b := 0
        entryPos := none
        trades := 1
        equity := [(0, 1000), (1, 1050)] } := by
  have hskip : entryStep exitWitnessParams exitWitnessState 5 exitWitnessRow = exitWitnessState :=
    entryStep_skip _ _ _ _ (Or.inl (by norm_num [exitWitnessState]))
  have hp : (entryStep exitWitnessParams exitWitnessState 5 exitWitnessRow).position ≠ 0 := by
    rw [hskip]
    norm_num [exitWitnessState]
  have he : exitCondB exitWitnessParams exitWitnessState 5 exitWitnessRow.z = true := by
    norm_num [exitCondB, stopOutB, heldTooLongB, exitWitnessParams, exitWitnessState,
      exitWitnessRow, defaultParams, abs_lt]
  have hstep := exit_realization_order exitWitnessParams exitWitnessState 5 exitWitnessRow hp he
  rw [hskip] at hstep
  refine hstep.trans ?_
  norm_num [mtmOf, tradeCost, exitWitnessParams, exitWitnessState, exitWitnessRow, defaultParams]

/-- The entry direction only takes the values `-1`, `1`, `0`. -/
theorem entryDir_cases (P : RunParams) (z : ℚ) :
    entryDir P z = -1 ∨ entryDir P z = 1 ∨ entryDir P z = 0 := by
  unfold entryDir
  by_cases h1 : P.zEntry < z
  · simp [h1]
  · by_cases h2 : z < -P.zEntry
    · simp [h1, h2]
    · simp [h1, h2]

/-- C5: position sizing at entry.  On any entry with direction
`d = entryDir`, the legs are sized
`shares_a = (notional_per_leg / price_a) * d` and
`shares_b = -(notional_per_leg * scale / price_b) * d` with
`scale = |beta|` if `beta_neutral` else `1`; consequently, for a nonzero
price and nonnegative notional (the spec's validity envelope),
`|shares_a * price_a| = notional_per_leg` exactly. -/
theorem entry_sizing (P : RunParams) (s : RState) (j : Nat) (r : RunRow)
    (h0 : s.position = 0) (hc : entryCond P r = true) :
    (entryStep P s j r).position = entryDir P r.z ∧
    (entryStep P s j r).position ≠ 0 ∧
    (entryStep P s j r).sh_a =
      (P.notionalPerLeg / r.priceA) * (((entryStep P s j r).position : Int) : ℚ) ∧
    (entryStep P s j r).sh_b =
      -(P.notionalPerLeg * (if P.betaNeutral then |r.beta| else 1) / r.priceB) *
        (((entryStep P s j r).position : Int) : ℚ) ∧
    (r.priceA ≠ 0 → 0 ≤ P.notionalPerLeg →
      |(entryStep P s j r).sh_a * r.priceA| = P.notionalPerLeg) := by
  have hd : entryDir P r.z ≠ 0 := (entryCond_iff P r).mp hc
  rw [entryStep_fire P s j r h0 hd]
  refine ⟨rfl, hd, rfl, rfl, ?_⟩
  intro hpa hN
  show |P.notionalPerLeg / r.priceA * ((entryDir P r.z : Int) : ℚ) * r.priceA| = P.notionalPerLeg
  have hmul : P.notionalPerLeg / r.priceA * ((entryDir P r.z : Int) : ℚ) * r.priceA
      = P.notionalPerLeg * ((entryDir P r.z : Int) : ℚ) := by
    field_simp
  have habs : |((entryDir P r.z : Int) : ℚ)| = 1 := by
    rcases entryDir_cases P r.z with h | h | h
    · rw [h]; norm_num
    · rw [h]; norm_num
    · exact absurd h hd
  rw [hmul, abs_mul, habs, abs_of_nonneg hN, mul_one]

/-- An entry bar: `z = -2` is below `-z_entry` for the defaults. -/
def entryWitnessRow : RunRow :=
  { idx := 0
    z := -2
    beta := 3 / 2
    priceA := 50
    priceB := 25 }

/-- C5 witness: a concrete entry from FLAT puts exactly
`notional_per_leg` dollars on leg A. -/
theorem entry_sizing_witness :
    |(entryStep defaultParams (initState defaultParams) 0 entryWitnessRow).sh_a *
      entryWitnessRow.priceA| = defaultParams.notionalPerLeg :=
  (entry_sizing defaultParams (initState defaultParams) 0 entryWitnessRow rfl
    (by norm_num [entryCond, defaultParams, entryWitnessRow])).2.2.2.2
    (by norm_num [entryWitnessRow]) (by norm_num [defaultParams])

/-- The exit branch never changes the trade count. -/
theorem step_trades_eq (P : RunParams) (s : RState) (j : Nat) (r : RunRow) :
    (step P s j r).trades = (entryStep P s j r).trades := by
  simp only [step]
  split
  · rfl
  · rfl

/-- The ENTRY block increments the trade count exactly on a FLAT state
with a fired signal. -/
theorem entryStep_trades (P : RunParams) (s : RState) (j : Nat) (r : RunRow) :
    (entryStep P s j r).trades =
      s.trades + (if s.position = 0 ∧ entryCond P r = true then 1 else 0) := by
  by_cases h0 : s.position = 0
  · by_cases hc : entryCond P r = true
    · rw [entryStep_fire P s j r h0 ((entryCond_iff P r).mp hc)]
      simp [h0, hc]
    · have hd : entryDir P r.z = 0 := by
        by_contra hd
        exact hc ((entryCond_iff P r).mpr hd)
      rw [entryStep_skip P s j r (Or.inr hd)]
      simp [hc]
  · rw [entryStep_skip P s j r (Or.inl h0)]
    simp [h0]

theorem runFrom_trades (P : RunParams) :
    ∀ (rows : List RunRow) (s : RState) (j : Nat),
      (runFrom P s j rows).trades =
        s.trades + ((trajFrom P s j rows).zip rows).countP
          (fun sr => decide (sr.1.position = 0) && entryCond P sr.2) := by
  intro rows
  induction rows with
  | nil => intro s j; simp [runFrom, trajFrom]
  | cons r rest ih =>
    intro s j
    have hzip : (trajFrom P s j (r :: rest)).zip (r :: rest)
        = (s, r) :: ((trajFrom P (step P s j r) (j + 1) rest).zip rest) := rfl
    have hrun : runFrom P s j (r :: rest) = runFrom P (step P s j r) (j + 1) rest := rfl
    rw [hrun, ih (step P s j r) (j + 1), step_trades_eq, entryStep_trades, hzip,
      List.countP_cons]
    by_cases h : s.position = 0 ∧ entryCond P r = true
    · have hb : (decide ((s, r).1.position = 0) && entryCond P (s, r).2) = true := by
        simp [h.1, h.2]
      rw [if_pos h, hb]
      simp only [eq_self_iff_true, if_true]
      omega
    · have hb : (decide ((s, r).1.position = 0) && entryCond P (s, r).2) = false := by
        rcases not_and_or.mp h with h1 | h1
        · simp [h1]
        · simp [Bool.of_not_eq_true h1]
      rw [if_neg h, hb]
      simp only [Bool.false_eq_true, if_false]
      omega

/-- C9: trade count semantics.  The trade count returned by `run` equals
exactly the number of bars on which the pre-bar state is FLAT and the
entry signal fires — it is incremented once per FLAT-to-open entry and
never on exit, so a full round trip contributes one, and a run ending
with an open position still counts that entry. -/
theorem trade_count_semantics (P : RunParams) (rows : List RunRow) :
    (run P rows).trades =
      ((trajFrom P (initState P) 0 rows).zip rows).countP
        (fun sr => decide (sr.1.position = 0) && entryCond P sr.2) := by
  have h := runFrom_trades P rows (initState P) 0
  simpa [run, initState] using h

/-! Definedness structure of the rolling windows, for the warm-up claim. -/

theorem seqOption_isSome (l : List (Option ℚ)) :
    (seqOption l).isSome ↔ ∀ o ∈ l, o.isSome := by
  induction l with
  | nil => simp [seqOption]
  | cons o t ih =>
    cases o with
    | none => simp [seqOption]
    | some v => simp [seqOption, ih]

theorem rollWindow_isSome (f : Nat → Option ℚ) (sw i : Nat) :
    (rollWindow f sw i).isSome ↔
      (sw ≤ i + 1 ∧ ∀ k, k < sw → (f (i + 1 - sw + k)).isSome) := by
  unfold rollWindow
  by_cases h : i + 1 < sw
  · rw [if_pos h]
    simp only [Option.isSome_none, Bool.false_eq_true, false_iff, not_and]
    intro hle
    omega
  · rw [if_neg h, seqOption_isSome]
    constructor
    · intro hall
      refine ⟨by omega, fun k hk => hall _ (List.mem_map_of_mem _ (List.mem_range.mpr hk))⟩
    · rintro ⟨-, hall⟩ o ho
      obtain ⟨k, hk, rfl⟩ := List.mem_map.mp ho
      exact hall k (List.mem_range.mp hk)

theorem spreadAt_isSome_iff (lg : ℚ → ℚ) (hw : Nat) (pa pb : List ℚ) (i : Nat) :
    (spreadAt lg hw pa pb i).isSome ↔
      ((hedgeAt lg hw pa pb i).isSome ∧ i < pa.length ∧ i < pb.length) := by
  have hlen : ∀ (l : List ℚ), ((l.map lg).get? i).isSome ↔ i < l.length := by
    intro l
    rw [List.get?_eq_getElem?]
    cases hg : (l.map lg)[i]? with
    | none =>
      simp only [Option.isSome_none, Bool.false_eq_true, false_iff, not_lt]
      have := List.getElem?_eq_none_iff.mp hg
      simpa using this
    | some v =>
      simp only [Option.isSome_some, true_iff]
      have hlt : i < (l.map lg).length := by
        by_contra hge
        rw [List.getElem?_eq_none (by omega)] at hg
        exact Option.noConfusion hg
      simpa using hlt
  unfold spreadAt
  cases hh : hedgeAt lg hw pa pb i with
  | none => simp
  | some ba =>
    cases hy : (pa.map lg).get? i with
    | none =>
      have hna : ¬ i < pa.length := by
        rw [← hlen pa, hy]
        simp
      simp [hna]
    | some yv =>
      cases hx : (pb.map lg).get? i with
      | none =>
        have hnb : ¬ i < pb.length := by
          rw [← hlen pb, hx]
          simp
        simp [hnb]
      | some xv =>
        have hpa : i < pa.length := by
          rw [← hlen pa, hy]
          simp
        have hpb : i < pb.length := by
          rw [← hlen pb, hx]
          simp
        simp [hpa, hpb]

theorem hedgeAt_isSome_ge (lg : ℚ → ℚ) (hw : Nat) (pa pb : List ℚ) (i : Nat)
    (h : (hedgeAt lg hw pa pb i).isSome) : hw ≤ i := by
  by_contra hlt
  rw [hedgeAt, if_pos (by omega)] at h
  simp at h

/-- C3 (corrected), amended: for windows of at least one bar and
non-singular regression windows, row `i` of the aligned input survives
the final `dropna` of `prepare_data` iff
`i >= hedge_window + spread_window - 1` and the rolling spread variance
at `i` is nonzero (equivalently `spread_std` nonzero) — the warm-up is
`hedge_window + spread_window - 1` bars, not
`max(hedge_window, spread_window)`: the first `hedge_window` spreads are
NaN, and a rolling window containing any NaN is NaN. -/
theorem warmup_survivor_iff (lg : ℚ → ℚ) (hw sw : Nat) (pa pb : List ℚ)
    (hsw : 1 ≤ sw)
    (hfit : ∀ j, j < min pa.length pb.length → hw ≤ j → (hedgeAt lg hw pa pb j).isSome) :
    ∀ i, i ∈ prepareDataIndex lg hw sw pa pb ↔
      (i < min pa.length pb.length ∧ hw + sw - 1 ≤ i ∧
        spreadVarAt lg hw sw pa pb i ≠ some 0) := by
  intro i
  rw [prepareDataIndex, List.mem_filter, List.mem_range]
  constructor
  · rintro ⟨hin, hsurv⟩
    rw [rowSurvives] at hsurv
    simp only [Bool.and_eq_true] at hsurv
    obtain ⟨⟨⟨⟨hhedge, hspread⟩, hmean⟩, hvar⟩, hz⟩ := hsurv
    refine ⟨hin, ?_, ?_⟩
    · have hvar2 : (rollWindow (spreadAt lg hw pa pb) sw i).isSome := by
        have := hvar
        rw [spreadVarAt] at this
        simpa using this
      rw [rollWindow_isSome] at hvar2
      obtain ⟨hswi, hall⟩ := hvar2
      have h0 := hall 0 (by omega)
      rw [spreadAt_isSome_iff] at h0
      have hh0 := hedgeAt_isSome_ge lg hw pa pb _ h0.1
      omega
    · rw [zDefinedAt] at hz
      cases hv : spreadVarAt lg hw sw pa pb i with
      | none =>
        rw [hv] at hz
        exact absurd hz Bool.false_ne_true
      | some v =>
        rw [hv] at hz
        simp only [decide_eq_true_eq] at hz
        intro hcontra
        exact hz (Option.some.inj hcontra)
  · rintro ⟨hin, hwarm, hvz⟩
    obtain ⟨hina, hinb⟩ := lt_min_iff.mp hin
    have hspreadj : ∀ j, hw ≤ j → j < min pa.length pb.length →
        (spreadAt lg hw pa pb j).isSome := by
      intro j h1 h2
      obtain ⟨h2a, h2b⟩ := lt_min_iff.mp h2
      rw [spreadAt_isSome_iff]
      exact ⟨hfit j h2 h1, h2a, h2b⟩
    have hwin : (rollWindow (spreadAt lg hw pa pb) sw i).isSome := by
      rw [rollWindow_isSome]
      refine ⟨by omega, fun k hk => hspreadj _ (by omega) (by omega)⟩
    obtain ⟨w, hw_eq⟩ := Option.isSome_iff_exists.mp hwin
    have hvar : spreadVarAt lg hw sw pa pb i = some (popVarQ w) := by
      rw [spreadVarAt, hw_eq]
      rfl
    have hmean : spreadMeanAt lg hw sw pa pb i = some (meanQ w) := by
      rw [spreadMeanAt, hw_eq]
      rfl
    have hvne : popVarQ w ≠ 0 := by
      intro hpv
      exact hvz (by rw [hvar, hpv])
    refine ⟨hin, ?_⟩
    rw [rowSurvives]
    simp only [Bool.and_eq_true]
    refine ⟨⟨⟨⟨?_, ?_⟩, ?_⟩, ?_⟩, ?_⟩
    · exact hfit i hin (by omega)
    · exact hspreadj i (by omega) hin
    · rw [hmean]
      rfl
    · rw [hvar]
      rfl
    · rw [zDefinedAt, hvar]
      simpa using hvne

/-- C3 (corrected), counterexample: with
`hedge_window = spread_window = 2` on five aligned bars the surviving
rows are positions 3 and 4 — the first survivor sits at
`hedge_window + spread_window - 1 = 3`, not at
`max(hedge_window, spread_window) = 2` as the claim states. -/
theorem warmup_equiv_cex :
    prepareDataIndex (fun q => q) 2 2 [0, 1, 3, 3, 4] [0, 1, 2, 3, 4] = [3, 4] ∧
      max 2 2 = 2 := by
  constructor
  · norm_num [prepareDataIndex, List.filter, rowSurvives, zDefinedAt, spreadVarAt, spreadMeanAt,
      rollWindow, seqOption, spreadAt, hedgeAt, olsFit, ilocSlice, meanQ, popVarQ,
      List.range_succ]
  · rfl

/-- C3 witness for the amended statement: on the counterexample input,
row 3 = `hedge_window + spread_window - 1` indeed survives. -/
theorem warmup_survivor_iff_witness :
    3 ∈ prepareDataIndex (fun q => q) 2 2 [0, 1, 3, 3, 4] [0, 1, 2, 3, 4] := by
  refine (warmup_survivor_iff (fun q => q) 2 2 [0, 1, 3, 3, 4] [0, 1, 2, 3, 4]
    (by norm_num) ?_ 3).mpr ⟨by norm_num, by norm_num, ?_⟩
  · intro j hj1 hj2
    have hj : j < 5 := by simpa using hj1
    interval_cases j
    · norm_num [hedgeAt, olsFit, ilocSlice]
    · norm_num [hedgeAt, olsFit, ilocSlice]
    · norm_num [hedgeAt, olsFit, ilocSlice]
  · norm_num [spreadVarAt, rollWindow, seqOption, spreadAt, hedgeAt, olsFit, ilocSlice, meanQ,
      popVarQ, List.range_succ]

/-! The run records exactly one equity point per row, labelled with the
row's timestamp. -/

theorem step_equity_map (P : RunParams) (s : RState) (j : Nat) (r : RunRow) :
    (step P s j r).equity.map Prod.fst = s.equity.map Prod.fst ++ [r.idx] := by
  simp only [step]
  split
  · simp [entryStep_equity]
  · simp [entryStep_equity]

theorem runFrom_equity_idx (P : RunParams) :
    ∀ (rows : List RunRow) (s : RState) (j : Nat),
      (runFrom P s j rows).equity.map Prod.fst =
        s.equity.map Prod.fst ++ rows.map RunRow.idx := by
  intro rows
  induction rows with
  | nil => intro s j; simp [runFrom]
  | cons r rest ih =>
    intro s j
    have hr : runFrom P s j (r :: rest) = runFrom P (step P s j r) (j + 1) rest := rfl
    rw [hr, ih, step_equity_map]
    simp

/-- C8 (corrected), amended: a bar with undefined `z` is removed by the
final `dropna` of `prepare_data` before the loop runs, so the backtest
makes no entry or exit decision on it — but, contrary to the claim, no
mark-to-market or EquityPoint recording happens for it either: the run
records exactly one equity point per surviving row, labelled by that
row's timestamp, so the output equity series has no point at the
undefined bar's timestamp. -/
theorem undefined_z_bar_amended (lg : ℚ → ℚ) (hw sw : Nat) (pa pb : List ℚ) (i : Nat)
    (P : RunParams) (rows : List RunRow)
    (hz : zDefinedAt lg hw sw pa pb i = false)
    (hrows : rows.map RunRow.idx = prepareDataIndex lg hw sw pa pb) :
    (run P rows).equity.map Prod.fst = prepareDataIndex lg hw sw pa pb ∧
      i ∉ (run P rows).equity.map Prod.fst := by
  have hmap : (run P rows).equity.map Prod.fst = prepareDataIndex lg hw sw pa pb := by
    have h := runFrom_equity_idx P rows (initState P) 0
    rw [run]
    rw [h]
    simpa [initState] using hrows
  refine ⟨hmap, ?_⟩
  rw [hmap]
  intro hmem
  rw [prepareDataIndex, List.mem_filter] at hmem
  have hsurv := hmem.2
  rw [rowSurvives] at hsurv
  simp only [Bool.and_eq_true] at hsurv
  rw [hz] at hsurv
  exact Bool.false_ne_true hsurv.2

/-- C8 (corrected), counterexample: on four aligned bars with identical
series (`y = x`), the spread is identically zero once defined, so the
rolling variance at bar 3 is zero and `z` is NaN there; bar 3 is dropped
by `prepare_data` (no row survives at all), the run iterates over no
rows, and the output equity series is empty — it contains no point at
bar 3's timestamp, contradicting the claim that mark-to-market and
EquityPoint recording still occur for a bar with undefined `z`. -/
theorem undefined_z_bar_cex :
    zDefinedAt (fun q => q) 2 2 [0, 1, 2, 3] [0, 1, 2, 3] 3 = false ∧
      prepareDataIndex (fun q => q) 2 2 [0, 1, 2, 3] [0, 1, 2, 3] = [] ∧
      (run defaultParams []).equity = [] := by
  refine ⟨?_, ?_, rfl⟩
  · norm_num [zDefinedAt, spreadVarAt, rollWindow, seqOption, spreadAt, hedgeAt, olsFit,
      ilocSlice, meanQ, popVarQ, List.range_succ]
  · norm_num [prepareDataIndex, List.filter, rowSurvives, zDefinedAt, spreadVarAt, spreadMeanAt,
      rollWindow, seqOption, spreadAt, hedgeAt, olsFit, ilocSlice, meanQ, popVarQ,
      List.range_succ]

/-- C8 witness for the amended statement, at the counterexample input:
feeding the run the (empty) list of surviving rows, the equity series
carries exactly the surviving timestamps and no point at bar 3. -/
theorem undefined_z_bar_amended_witness :
    (run defaultParams ([] : List RunRow)).equity.map Prod.fst =
        prepareDataIndex (fun q => q) 2 2 [0, 1, 2, 3] [0, 1, 2, 3] ∧
      3 ∉ (run defaultParams ([] : List RunRow)).equity.map Prod.fst := by
  refine undefined_z_bar_amended (fun q => q) 2 2 [0, 1, 2, 3] [0, 1, 2, 3] 3 defaultParams []
    ?_ ?_
  · norm_num [zDefinedAt, spreadVarAt, rollWindow, seqOption, spreadAt, hedgeAt, olsFit,
      ilocSlice, meanQ, popVarQ, List.range_succ]
  · norm_num [prepareDataIndex, List.filter, rowSurvives, zDefinedAt, spreadVarAt, spreadMeanAt,
      rollWindow, seqOption, spreadAt, hedgeAt, olsFit, ilocSlice, meanQ, popVarQ,
      List.range_succ]

/-! The Sharpe-like metric. -/

theorem popVarQ_nonneg (l : List ℚ) : 0 ≤ popVarQ l := by
  unfold popVarQ
  apply div_nonneg
  · apply List.sum_nonneg
    intro x hx
    obtain ⟨v, hv, rfl⟩ := List.mem_map.mp hx
    exact mul_self_nonneg _
  · exact Nat.cast_nonneg _

/-- C7: Sharpe-like ratio definedness and formula.  The metric is NaN
(`none`) iff the count of per-period returns — percentage changes
between consecutive equity values, the first point having none — is
below 2 or their population standard deviation `√ popVarQ` is zero;
otherwise it is determined as `√(252·78) · mean / √ variance` by the pair
`(mean, variance)` of the returns, which `sharpeMetric` yields.  The
hypothesis keeps equity values nonzero so the rational embedding of
`pct_change` agrees with the code on every return. -/
theorem sharpe_definedness (equityVals : List ℚ) (_hnz : ∀ e ∈ equityVals, e ≠ 0) :
    (sharpeMetric equityVals = none ↔
      ((returnsOf equityVals).length < 2 ∨
        Real.sqrt ((popVarQ (returnsOf equityVals) : ℚ) : ℝ) = 0)) ∧
    (∀ m v, sharpeMetric equityVals = some (m, v) →
      m = meanQ (returnsOf equityVals) ∧ v = popVarQ (returnsOf equityVals) ∧ v ≠ 0 ∧
        2 ≤ (returnsOf equityVals).length) := by
  have hvar0 : Real.sqrt ((popVarQ (returnsOf equityVals) : ℚ) : ℝ) = 0 ↔
      popVarQ (returnsOf equityVals) = 0 := by
    constructor
    · intro h
      have hle : ((popVarQ (returnsOf equityVals) : ℚ) : ℝ) ≤ 0 := Real.sqrt_eq_zero'.mp h
      have hge : (0 : ℝ) ≤ ((popVarQ (returnsOf equityVals) : ℚ) : ℝ) := by
        exact_mod_cast popVarQ_nonneg _
      exact_mod_cast le_antisymm hle hge
    · intro h
      rw [h]
      simp
  constructor
  · rw [sharpeMetric]
    by_cases hcond : popVarQ (returnsOf equityVals) = 0 ∨ (returnsOf equityVals).length < 2
    · simp only [if_pos hcond, true_iff]
      rw [hvar0]
      tauto
    · simp only [if_neg hcond]
      push_neg at hcond
      simp only [hvar0]
      constructor
      · intro hcontra
        exact Option.noConfusion hcontra
      · intro hcontra
        rcases hcontra with h | h
        · exact absurd h (by omega)
        · exact absurd h hcond.1
  · intro m v hsome
    rw [sharpeMetric] at hsome
    by_cases hcond : popVarQ (returnsOf equityVals) = 0 ∨ (returnsOf equityVals).length < 2
    · rw [if_pos hcond] at hsome
      exact Option.noConfusion hsome
    · rw [if_neg hcond] at hsome
      push_neg at hcond
      have hpair := Option.some.inj hsome
      have hm : meanQ (returnsOf equityVals) = m := congrArg Prod.fst hpair
      have hv : popVarQ (returnsOf equityVals) = v := congrArg Prod.snd hpair
      refine ⟨hm.symm, hv.symm, ?_, by omega⟩
      rw [← hv]
      exact hcond.1

/-- C7 witness: for the equity series `[1, 2, 1]` the returns are
`[1, -1/2]`, the metric is defined and yields mean `1/4` and variance
`9/16`. -/
theorem sharpe_definedness_witness :
    (1 / 4 : ℚ) = meanQ (returnsOf [1, 2, 1]) ∧
      (9 / 16 : ℚ) = popVarQ (returnsOf [1, 2, 1]) ∧ (9 / 16 : ℚ) ≠ 0 ∧
      2 ≤ (returnsOf [(1 : ℚ), 2, 1]).length :=
  (sharpe_definedness [1, 2, 1] (by norm_num)).2 (1 / 4) (9 / 16)
    (by norm_num [sharpeMetric, returnsOf, meanQ, popVarQ, List.zipWith])

/-! Cost monotonicity: a run with a larger `cost_bps` tracks the cheaper
run bar for bar — identical decisions and positions, pointwise lower
cash and equity. -/

/-- Pointwise comparison of equity points: same timestamp, value of the
first at most the value of the second. -/
def eqPointLe (q p : Nat × ℚ) : Prop := q.1 = p.1 ∧ q.2 ≤ p.2

/-- The simulation relation between the state of the cheap run `s1` and
the state of the expensive run `s2`: all trading state agrees, only cash
and recorded equity of the expensive run sit at or below the cheap
run's. -/
def StateRel (s1 s2 : RState) : Prop :=
  s2.position = s1.position ∧ s2.sh_a = s1.sh_a ∧ s2.sh_b = s1.sh_b ∧
    s2.entryPos = s1.entryPos ∧ s2.trades = s1.trades ∧ s2.capital ≤ s1.capital ∧
    List.Forall₂ eqPointLe s2.equity s1.equity

theorem tradeCost_mono (P : RunParams) (c1 c2 : ℚ) (hN : 0 ≤ P.notionalPerLeg)
    (hc : c1 ≤ c2) :
    tradeCost { P with costBps := c1 } ≤ tradeCost { P with costBps := c2 } := by
  unfold tradeCost
  by_cases h2 : c2 ≤ 0
  · rw [if_pos (show ({ P with costBps := c1 } : RunParams).costBps ≤ 0 from le_trans hc h2),
      if_pos (show ({ P with costBps := c2 } : RunParams).costBps ≤ 0 from h2)]
  · rw [if_neg (show ¬ ({ P with costBps := c2 } : RunParams).costBps ≤ 0 from h2)]
    have hc2 : (0 : ℚ) < c2 := not_le.mp h2
    have hrhs : (0 : ℚ) ≤ 2 * P.notionalPerLeg * (c2 / 10000) := by
      apply mul_nonneg (by linarith)
      exact div_nonneg (le_of_lt hc2) (by norm_num)
    by_cases h1 : c1 ≤ 0
    · rw [if_pos (show ({ P with costBps := c1 } : RunParams).costBps ≤ 0 from h1)]
      exact hrhs
    · rw [if_neg (show ¬ ({ P with costBps := c1 } : RunParams).costBps ≤ 0 from h1)]
      have hdiv : c1 / 10000 ≤ c2 / 10000 :=
        (div_le_div_iff_of_pos_right (show (0 : ℚ) < 10000 by norm_num)).mpr hc
      exact mul_le_mul_of_nonneg_left hdiv (by linarith)

theorem exitCondB_costBps (P : RunParams) (c1 c2 : ℚ) (s1 s2 : RState) (j : Nat) (z : ℚ)
    (hpos : s2.position = s1.position) (hent : s2.entryPos = s1.entryPos) :
    exitCondB { P with costBps := c2 } s2 j z = exitCondB { P with costBps := c1 } s1 j z := by
  unfold exitCondB stopOutB heldTooLongB
  rw [hpos, hent]

theorem entry_costBps_rel (P : RunParams) (c1 c2 : ℚ) (hN : 0 ≤ P.notionalPerLeg)
    (hc : c1 ≤ c2) (s1 s2 : RState) (j : Nat) (r : RunRow)
    (hpos : s2.position = s1.position) (hsa : s2.sh_a = s1.sh_a) (hsb : s2.sh_b = s1.sh_b)
    (hent : s2.entryPos = s1.entryPos) (htr : s2.trades = s1.trades)
    (hcap : s2.capital ≤ s1.capital) :
    (entryStep { P with costBps := c2 } s2 j r).position =
        (entryStep { P with costBps := c1 } s1 j r).position ∧
      (entryStep { P with costBps := c2 } s2 j r).sh_a =
        (entryStep { P with costBps := c1 } s1 j r).sh_a ∧
      (entryStep { P with costBps := c2 } s2 j r).sh_b =
        (entryStep { P with costBps := c1 } s1 j r).sh_b ∧
      (entryStep { P with costBps := c2 } s2 j r).entryPos =
        (entryStep { P with costBps := c1 } s1 j r).entryPos ∧
      (entryStep { P with costBps := c2 } s2 j r).trades =
        (entryStep { P with costBps := c1 } s1 j r).trades ∧
      (entryStep { P with costBps := c2 } s2 j r).capital ≤
        (entryStep { P with costBps := c1 } s1 j r).capital := by
  have hdir : entryDir { P with costBps := c2 } r.z = entryDir { P with costBps := c1 } r.z :=
    rfl
  by_cases h0 : s1.position = 0
  · have h02 : s2.position = 0 := by rw [hpos, h0]
    by_cases hd : entryDir { P with costBps := c1 } r.z = 0
    · rw [entryStep_skip _ _ _ _ (Or.inr hd),
        entryStep_skip _ _ _ _ (Or.inr (hdir.trans hd))]
      exact ⟨hpos, hsa, hsb, hent, htr, hcap⟩
    · rw [entryStep_fire _ _ _ _ h0 hd,
        entryStep_fire _ _ _ _ h02 (fun hcontra => hd (hdir.symm.trans hcontra))]
      refine ⟨hdir, rfl, rfl, rfl, by rw [htr], ?_⟩
      have htc := tradeCost_mono P c1 c2 hN hc
      show s2.capital - tradeCost { P with costBps := c2 } ≤
        s1.capital - tradeCost { P with costBps := c1 }
      linarith
  · have h02 : ¬ s2.position = 0 := by rw [hpos]; exact h0
    rw [entryStep_skip _ _ _ _ (Or.inl h0), entryStep_skip _ _ _ _ (Or.inl h02)]
    exact ⟨hpos, hsa, hsb, hent, htr, hcap⟩

theorem step_costBps_rel (P : RunParams) (c1 c2 : ℚ) (hN : 0 ≤ P.notionalPerLeg)
    (hc : c1 ≤ c2) (s1 s2 : RState) (j : Nat) (r : RunRow) (h : StateRel s1 s2) :
    StateRel (step { P with costBps := c1 } s1 j r) (step { P with costBps := c2 } s2 j r) := by
  obtain ⟨hpos, hsa, hsb, hent, htr, hcap, heq⟩ := h
  obtain ⟨hepos, hesa, hesb, heent, hetr, hecap⟩ :=
    entry_costBps_rel P c1 c2 hN hc s1 s2 j r hpos hsa hsb hent htr hcap
  have hmtm : mtmOf (entryStep { P with costBps := c2 } s2 j r) r =
      mtmOf (entryStep { P with costBps := c1 } s1 j r) r := by
    unfold mtmOf
    rw [hesa, hesb]
  have heqv : (entryStep { P with costBps := c2 } s2 j r).capital +
        mtmOf (entryStep { P with costBps := c2 } s2 j r) r ≤
      (entryStep { P with costBps := c1 } s1 j r).capital +
        mtmOf (entryStep { P with costBps := c1 } s1 j r) r := by
    rw [hmtm]
    exact add_le_add_right hecap _
  have happ : List.Forall₂ eqPointLe
      (s2.equity ++ [(r.idx, (entryStep { P with costBps := c2 } s2 j r).capital +
        mtmOf (entryStep { P with costBps := c2 } s2 j r) r)])
      (s1.equity ++ [(r.idx, (entryStep { P with costBps := c1 } s1 j r).capital +
        mtmOf (entryStep { P with costBps := c1 } s1 j r) r)]) :=
    List.rel_append heq (List.Forall₂.cons ⟨rfl, heqv⟩ List.Forall₂.nil)
  have hcond : ((entryStep { P with costBps := c2 } s2 j r).position ≠ 0 ∧
        exitCondB { P with costBps := c2 } s2 j r.z = true) ↔
      ((entryStep { P with costBps := c1 } s1 j r).position ≠ 0 ∧
        exitCondB { P with costBps := c1 } s1 j r.z = true) := by
    rw [hepos, exitCondB_costBps P c1 c2 s1 s2 j r.z hpos hent]
  by_cases hex : (entryStep { P with costBps := c1 } s1 j r).position ≠ 0 ∧
      exitCondB { P with costBps := c1 } s1 j r.z = true
  · have hex2 := hcond.mpr hex
    rw [step_of_exit _ _ _ _ hex.1 hex.2, step_of_exit _ _ _ _ hex2.1 hex2.2]
    refine ⟨rfl, rfl, rfl, rfl, hetr, ?_, ?_⟩
    · have htc := tradeCost_mono P c1 c2 hN hc
      show (entryStep { P with costBps := c2 } s2 j r).capital +
          mtmOf (entryStep { P with costBps := c2 } s2 j r) r -
          tradeCost { P with costBps := c2 } ≤ _
      have h1 := heqv
      simp only []
      linarith
    · show List.Forall₂ eqPointLe
        ((entryStep { P with costBps := c2 } s2 j r).equity ++ _)
        ((entryStep { P with costBps := c1 } s1 j r).equity ++ _)
      rw [entryStep_equity, entryStep_equity]
      exact happ
  · have hex2 : ¬ ((entryStep { P with costBps := c2 } s2 j r).position ≠ 0 ∧
        exitCondB { P with costBps := c2 } s2 j r.z = true) := fun hcontra =>
      hex (hcond.mp hcontra)
    have hs1 : (entryStep { P with costBps := c1 } s1 j r).position = 0 ∨
        exitCondB { P with costBps := c1 } s1 j r.z = false := by
      rcases not_and_or.mp hex with h | h
      · exact Or.inl (not_not.mp h)
      · exact Or.inr (Bool.not_eq_true _ ▸ h)
    have hs2 : (entryStep { P with costBps := c2 } s2 j r).position = 0 ∨
        exitCondB { P with costBps := c2 } s2 j r.z = false := by
      rcases not_and_or.mp hex2 with h | h
      · exact Or.inl (not_not.mp h)
      · exact Or.inr (Bool.not_eq_true _ ▸ h)
    rw [step_of_no_exit _ _ _ _ hs1, step_of_no_exit _ _ _ _ hs2]
    refine ⟨hepos, hesa, hesb, heent, hetr, hecap, ?_⟩
    show List.Forall₂ eqPointLe
      ((entryStep { P with costBps := c2 } s2 j r).equity ++ _)
      ((entryStep { P with costBps := c1 } s1 j r).equity ++ _)
    rw [entryStep_equity, entryStep_equity]
    exact happ

theorem runFrom_costBps_rel (P : RunParams) (c1 c2 : ℚ) (hN : 0 ≤ P.notionalPerLeg)
    (hc : c1 ≤ c2) :
    ∀ (rows : List RunRow) (s1 s2 : RState) (j : Nat), StateRel s1 s2 →
      StateRel (runFrom { P with costBps := c1 } s1 j rows)
        (runFrom { P with costBps := c2 } s2 j rows) := by
  intro rows
  induction rows with
  | nil => intro s1 s2 j h; exact h
  | cons r rest ih =>
    intro s1 s2 j h
    exact ih _ _ _ (step_costBps_rel P c1 c2 hN hc s1 s2 j r h)

theorem forall2_getLast {α β : Type} {R : α → β → Prop} :
    ∀ {l2 : List α} {l1 : List β}, List.Forall₂ R l2 l1 →
      ∀ {q : α} {p : β}, l2.getLast? = some q → l1.getLast? = some p → R q p := by
  intro l2 l1 h
  induction h with
  | nil =>
    intro q p hq hp
    exact Option.noConfusion hq
  | @cons a b t2 t1 hab ht ih =>
    intro q p hq hp
    cases ht with
    | nil =>
      simp only [List.getLast?_singleton, Option.some.injEq] at hq hp
      rw [← hq, ← hp]
      exact hab
    | @cons x y xs ys hxy hxs =>
      rw [List.getLast?_cons_cons] at hq hp
      exact ih hq hp

/-- C6: cost monotonicity.  For a fixed input row stream and fixed
values of every other parameter (with the spec-valid nonnegative
notional), the run with the larger `cost_bps` never records a larger
equity value: the two equity series have the same timestamps pointwise
with the expensive run at or below the cheap run on every bar, and in
particular its final equity value is never larger. -/
theorem cost_monotonicity (P : RunParams) (c1 c2 : ℚ) (rows : List RunRow)
    (hN : 0 ≤ P.notionalPerLeg) (hc : c1 ≤ c2) :
    List.Forall₂ eqPointLe (run { P with costBps := c2 } rows).equity
        (run { P with costBps := c1 } rows).equity ∧
      ∀ p q, (run { P with costBps := c1 } rows).equity.getLast? = some p →
        (run { P with costBps := c2 } rows).equity.getLast? = some q → q.2 ≤ p.2 := by
  have hinit : StateRel (initState { P with costBps := c1 })
      (initState { P with costBps := c2 }) :=
    ⟨rfl, rfl, rfl, rfl, rfl, le_refl _, List.Forall₂.nil⟩
  have hrel := runFrom_costBps_rel P c1 c2 hN hc rows _ _ 0 hinit
  obtain ⟨-, -, -, -, -, -, heq⟩ := hrel
  refine ⟨heq, fun p q hp hq => ?_⟩
  exact (forall2_getLast heq hq hp).2

/-- A cost-free-versus-costly comparison configuration. -/
def monoWitnessParams : RunParams :=
  { defaultParams with
    zEntry := 1
    zExit := 1 / 2
    initialCapital := 10000
    notionalPerLeg := 1000
    betaNeutral := false }

/-- Two bars: an entry at `z = 2` and an exit at `z = 0`. -/
def monoWitnessRows : List RunRow :=
  [{ idx := 0
     z := 2
     beta := 1
     priceA := 10
     priceB := 10 },
   { idx := 1
     z := 0
     beta := 1
     priceA := 10
     priceB := 10 }]

/-- C6 witness: at `cost_bps = 0` versus `cost_bps = 100` the final
equities are `10000` and `9980`, and the theorem yields `9980 ≤ 10000`. -/
theorem cost_monotonicity_witness :
    (run { monoWitnessParams with costBps := 0 } monoWitnessRows).equity.getLast?
        = some (1, 10000) ∧
      (run { monoWitnessParams with costBps := 100 } monoWitnessRows).equity.getLast?
        = some (1, 9980) ∧
      ((1, 9980) : Nat × ℚ).2 ≤ ((1, 10000) : Nat × ℚ).2 := by
  have h1 : (run { monoWitnessParams with costBps := 0 } monoWitnessRows).equity.getLast?
      = some (1, 10000) := by
    norm_num [run, runFrom, step, entryStep, entryDir, entryCond, exitCondB, stopOutB,
      heldTooLongB, mtmOf, tradeCost, initState, monoWitnessParams, monoWitnessRows,
      defaultParams, abs_lt, le_abs, List.getLast?]
  have h2 : (run { monoWitnessParams with costBps := 100 } monoWitnessRows).equity.getLast?
      = some (1, 9980) := by
    norm_num [run, runFrom, step, entryStep, entryDir, entryCond, exitCondB, stopOutB,
      heldTooLongB, mtmOf, tradeCost, initState, monoWitnessParams, monoWitnessRows,
      defaultParams, abs_lt, le_abs, List.getLast?]
  exact ⟨h1, h2, (cost_monotonicity monoWitnessParams 0 100 monoWitnessRows
    (by norm_num [monoWitnessParams, defaultParams]) (by norm_num)).2 (1, 10000) (1, 9980) h1 h2⟩

end HFT
